import Mathlib

/-!
Verification of the `vis` repository (`src/vis/imshows.py`) against its
specification.

The module wraps matplotlib display calls around a small amount of pure
array logic.  We shallowly embed that logic:

* an n-dimensional numpy array is modelled as `NDArray`: a shape (list of
  axis sizes) together with its row-major flat data;
* the display call at the end of each function (`plt.imshow` / `plt.plot`)
  is modelled by the `Display` type, recording exactly the array, the
  colormap and the interpolation mode handed to the renderer;
* Python 2 semantics are used for `_factors` (`n/2` is floor division and
  `filter` over a `range` list yields a list), matching the doctest
  outputs in the source;
* numpy float arithmetic in `nshow` is embedded over `ℚ`, with the single
  non-finite-producing operation (division) returning `Option ℚ`: `none`
  stands for the non-finite result (NaN/Inf) numpy produces when the
  denominator is zero.
-/

/-- A numpy n-dimensional array: `shape` lists the axis sizes, `data` is the
row-major flat contents. -/
structure NDArray (α : Type) where
  shape : List ℕ
  data : List α
deriving DecidableEq, Repr

/-- `a.ndim` is numpy's `a.ndim`: the number of axes. -/
def NDArray.ndim {α : Type} (a : NDArray α) : ℕ := a.shape.length

/-- `sectionAt i a` is numpy's `a[i]`: fix the leading axis to index `i`,
keeping the remaining axes.  In row-major order the data of `a[i]` is the
`i`-th contiguous block of length `rest.prod`. -/
def sectionAt {α : Type} (i : ℕ) (a : NDArray α) : NDArray α :=
  match a.shape with
  | [] => a
  | _ :: rest => ⟨rest, (a.data.drop (i * rest.prod)).take rest.prod⟩

/-- The cross-section taken by `cshow`/`sshow` when `ndim > 2`:
`im[im.shape[0] // 2]`. -/
def crossSection {α : Type} (a : NDArray α) : NDArray α :=
  sectionAt (a.shape.headI / 2) a

/-- Worker for the dimensionality reducer shared by `cshow` and `sshow`:
while the shape has more than two axes, replace the array by its middle
leading cross-section (`im[im.shape[0] // 2]`). -/
def reduceGo {α : Type} : List ℕ → List α → NDArray α
  | d0 :: d1 :: d2 :: rest, data =>
      reduceGo (d1 :: d2 :: rest)
        ((data.drop (d0 / 2 * (d1 :: d2 :: rest).prod)).take (d1 :: d2 :: rest).prod)
  | sh, data => ⟨sh, data⟩

/-- The dimensionality reducer: the recursion of `cshow`/`sshow` stripped of
its final renderer call. -/
def reduce {α : Type} (a : NDArray α) : NDArray α := reduceGo a.shape a.data

/-- The sequence of leading-axis indices selected by the reducer on a given
shape: `d0 / 2` for each axis stripped while more than two remain. -/
def reduceIndices : List ℕ → List ℕ
  | d0 :: d1 :: d2 :: rest => d0 / 2 :: reduceIndices (d1 :: d2 :: rest)
  | _ => []

/-- The colormap argument handed to the renderer. -/
inductive Cmap where
  | cubehelix : Cmap
  | listed : List (ℚ × ℚ × ℚ) → Cmap
  | unspecified : Cmap
deriving DecidableEq, Repr

/-- The interpolation argument handed to the renderer. -/
inductive Interp where
  | nearest : Interp
  | unspecified : Interp
deriving DecidableEq, Repr

/-- The renderer boundary: what a display function finally hands to
matplotlib — either `plt.imshow(array, cmap, interpolation)` or
`plt.plot(values)`. -/
inductive Display (α : Type) where
  | imshow : NDArray α → Cmap → Interp → Display α
  | plot : List α → Display α
deriving DecidableEq, Repr

/-- Worker for `cshow` over shape and flat data. -/
def cshowGo : List ℕ → List ℚ → Display ℚ
  | d0 :: d1 :: d2 :: rest, data =>
      cshowGo (d1 :: d2 :: rest)
        ((data.drop (d0 / 2 * (d1 :: d2 :: rest).prod)).take (d1 :: d2 :: rest).prod)
  | sh, data => .imshow ⟨sh, data⟩ .cubehelix .nearest

/-- `cshow(im)`: if `im.ndim > 2`, recurse on the middle leading
cross-section; otherwise `plt.imshow(im, cmap=cm.cubehelix,
interpolation='nearest')`. -/
def cshow (im : NDArray ℚ) : Display ℚ := cshowGo im.shape im.data

/-- `_factors(n)`: `filter(lambda i: (n % i == 0), range(2, 1 + n/2))` under
Python 2 semantics — the integers `i` with `2 ≤ i ≤ n/2` (floor division)
dividing `n`.  `List.range' 2 (1 + n / 2 - 2)` is exactly Python's
`range(2, 1 + n/2)` (truncated subtraction matching the empty range). -/
def _factors (n : ℕ) : List ℕ :=
  (List.range' 2 (1 + n / 2 - 2)).filter (fun i => decide (n % i = 0))

/-- `rshow(values)`: with `n = len(values)`, `fs = _factors(n)`,
`k = len(fs)`; if `k == 0` fall back to `plt.plot(values)`, else reshape to
`(-1, fs[k // 2])` — row-major, first axis `n / fs[k // 2]` — and `cshow`
the result. -/
def rshow (values : List ℚ) : Display ℚ :=
  let n := values.length
  let fs := _factors n
  let k := fs.length
  if k = 0 then .plot values
  else cshow ⟨[n / fs.getD (k / 2) 0, fs.getD (k / 2) 0], values⟩

/-- The factor `fs[k // 2]` chosen by `rshow` in its image branch. -/
def chosenFactor (n : ℕ) : ℕ :=
  (_factors n).getD ((_factors n).length / 2) 0

-- Basic facts about the reducer worker.

theorem reduceGo_base {α : Type} :
    ∀ (sh : List ℕ), sh.length ≤ 2 → ∀ (data : List α), reduceGo sh data = ⟨sh, data⟩
  | [], _, _ => rfl
  | [_], _, _ => rfl
  | [_, _], _, _ => rfl
  | _ :: _ :: _ :: _, h, _ => absurd h (by simp)

theorem reduceGo_ndim {α : Type} :
    ∀ (sh : List ℕ), 2 ≤ sh.length → ∀ (data : List α), (reduceGo sh data).shape.length = 2
  | [], h, _ => absurd h (by simp)
  | [_], h, _ => absurd h (by simp)
  | [_, _], _, _ => rfl
  | d0 :: d1 :: d2 :: rest, _, data => by
      rw [reduceGo]
      exact reduceGo_ndim (d1 :: d2 :: rest) (by simp) _

theorem reduceGo_foldl {α : Type} :
    ∀ (sh : List ℕ) (data : List α),
      reduceGo sh data = (reduceIndices sh).foldl (fun b i => sectionAt i b) ⟨sh, data⟩
  | [], _ => rfl
  | [_], _ => rfl
  | [_, _], _ => rfl
  | d0 :: d1 :: d2 :: rest, data => by
      rw [reduceGo, reduceIndices, List.foldl_cons]
      exact reduceGo_foldl (d1 :: d2 :: rest) _

theorem cshowGo_eq_reduceGo :
    ∀ (sh : List ℕ) (data : List ℚ),
      cshowGo sh data = .imshow (reduceGo sh data) .cubehelix .nearest
  | [], _ => rfl
  | [_], _ => rfl
  | [_, _], _ => rfl
  | d0 :: d1 :: d2 :: rest, data => by
      rw [cshowGo, reduceGo]
      exact cshowGo_eq_reduceGo (d1 :: d2 :: rest) _

/-- `cshow` is exactly: reduce to at most two axes, then hand the result to
the renderer with the cubehelix colormap and nearest-neighbour
interpolation. -/
theorem cshow_eq_imshow_reduce (im : NDArray ℚ) :
    cshow im = .imshow (reduce im) .cubehelix .nearest :=
  cshowGo_eq_reduceGo im.shape im.data

-- Characterisation of `_factors`.

theorem mem_factors (n d : ℕ) :
    d ∈ _factors n ↔ 2 ≤ d ∧ d ≤ n / 2 ∧ n % d = 0 := by
  unfold _factors
  rw [List.mem_filter, List.mem_range'_1, decide_eq_true_eq]
  omega

theorem mem_factors_iff (n d : ℕ) (hn : 1 ≤ n) :
    d ∈ _factors n ↔ 1 < d ∧ d < n ∧ n % d = 0 := by
  rw [mem_factors]
  constructor
  · rintro ⟨h2, hle, hmod⟩
    exact ⟨h2, lt_of_le_of_lt hle (Nat.div_lt_self hn one_lt_two), hmod⟩
  · rintro ⟨h2, hlt, hmod⟩
    refine ⟨h2, ?_, hmod⟩
    obtain ⟨m, hm⟩ := Nat.dvd_of_mod_eq_zero hmod
    have hm2 : 2 ≤ m := by
      rcases m with _ | _ | m
      · omega
      · omega
      · omega
    have h2d : 2 * d ≤ n := by
      calc 2 * d ≤ m * d := Nat.mul_le_mul_right d hm2
        _ = n := by rw [hm, Nat.mul_comm]
    omega

theorem factors_sorted (n : ℕ) : List.Sorted (· < ·) (_factors n) :=
  (List.pairwise_lt_range' 2 (1 + n / 2 - 2)).filter _

theorem factors_empty_of_small_or_prime (n : ℕ)
    (h : n = 1 ∨ n = 2 ∨ n = 3 ∨ n.Prime) : _factors n = [] := by
  rcases h with h | h | h | hp
  · subst h; rfl
  · subst h; rfl
  · subst h; rfl
  · rw [List.eq_nil_iff_forall_not_mem]
    intro d hd
    rw [mem_factors_iff n d hp.one_lt.le] at hd
    obtain ⟨h2, hlt, hmod⟩ := hd
    rcases (Nat.Prime.eq_one_or_self_of_dvd hp d (Nat.dvd_of_mod_eq_zero hmod)) with h1 | hn
    · omega
    · omega

-- `nshow`: per-channel normalisation.

/-- The division in `nshow`, over numpy float semantics: when the
denominator is zero, numpy yields a non-finite value (NaN or Inf), modelled
here as `none`; otherwise the exact quotient. -/
def npDiv (a b : ℚ) : Option ℚ := if b = 0 then none else some (a / b)

/-- The values of channel `ch` across all pixels: the image flattened over
its two spatial axes, each pixel contributing its `ch`-th component. -/
def chanVals (im : List (List (List ℚ))) (ch : ℕ) : List ℚ :=
  im.flatten.map (fun px => px.getD ch 0)

/-- Minimum of a list of rationals (numpy `min` over a nonempty array). -/
def listMin : List ℚ → ℚ
  | [] => 0
  | x :: xs => xs.foldl min x

/-- Maximum of a list of rationals (numpy `max` over a nonempty array). -/
def listMax : List ℚ → ℚ
  | [] => 0
  | x :: xs => xs.foldl max x

/-- `im.min(axis=0).min(axis=0)` at channel `ch`: the per-channel minimum
over both spatial axes. -/
def chanMin (im : List (List (List ℚ))) (ch : ℕ) : ℚ := listMin (chanVals im ch)

/-- `im.max(axis=0).max(axis=0)` at channel `ch`: the per-channel maximum
over both spatial axes. -/
def chanMax (im : List (List (List ℚ))) (ch : ℕ) : ℚ := listMax (chanVals im ch)

/-- One pixel of `(im - channel_mins) / (channel_maxs - channel_mins)`:
channel `ch` (counting from `k`) becomes
`(v - chanMin im ch) / (chanMax im ch - chanMin im ch)`, the division
unguarded. -/
def normalizeChans (im : List (List (List ℚ))) : ℕ → List ℚ → List (Option ℚ)
  | _, [] => []
  | ch, v :: vs =>
      npDiv (v - chanMin im ch) (chanMax im ch - chanMin im ch) ::
        normalizeChans im (ch + 1) vs

/-- `nshow(im)` up to the renderer call: the normalised array `im_out`
handed to `plt.imshow`.  Entries are `Option ℚ`; `none` marks the
non-finite values numpy produces where `channel_max == channel_min`. -/
def nshow (im : List (List (List ℚ))) : List (List (List (Option ℚ))) :=
  im.map (fun row => row.map (fun px => normalizeChans im 0 px))

-- `sshow`: label display with a random categorical colormap.

/-- Clamping used by `sshow` on the converted colors:
`rand_colors[rand_colors < 0] = 0` then `rand_colors[rand_colors > 1] = 1`. -/
def clamp01 (x : ℚ) : ℚ := if x < 0 then 0 else if 1 < x then 1 else x

/-- `np.ceil(im.max())` for an integer label array: its maximum label. -/
def maxLabel (a : NDArray ℕ) : ℕ := a.data.foldr max 0

/-- The `m` random color rows of `sshow`'s colormap.  `rand i j` is the
injected random source (`np.random.rand`, values in `[0,1)`); `lab2rgb` is
the external color-space conversion.  With `labrandom`, the three channels
are remapped into the Lab ranges `L = r*60+20`, `a = r*185-85`,
`b = r*198-106`, converted by `lab2rgb`, and clamped to `[0,1]`. -/
def sshowColors (rand : ℕ → ℕ → ℚ) (lab2rgb : ℚ × ℚ × ℚ → ℚ × ℚ × ℚ)
    (labrandom : Bool) (m : ℕ) : List (ℚ × ℚ × ℚ) :=
  let rc := (List.range m).map (fun i => (rand i 0, rand i 1, rand i 2))
  if labrandom then
    rc.map (fun t =>
      let rgb := lab2rgb (t.1 * 60 + 20, t.2.1 * 185 - 85, t.2.2 * 198 - 106)
      (clamp01 rgb.1, clamp01 rgb.2.1, clamp01 rgb.2.2))
  else rc

/-- The full `ListedColormap` table of `sshow`:
`np.concatenate((np.zeros((1, 3)), rand_colors))` — a black row prepended to
the `m` random rows. -/
def sshowTable (rand : ℕ → ℕ → ℚ) (lab2rgb : ℚ × ℚ × ℚ → ℚ × ℚ × ℚ)
    (labrandom : Bool) (m : ℕ) : List (ℚ × ℚ × ℚ) :=
  (0, 0, 0) :: sshowColors rand lab2rgb labrandom m

/-- Worker for `sshow` over shape and flat data. -/
def sshowGo (rand : ℕ → ℕ → ℚ) (lab2rgb : ℚ × ℚ × ℚ → ℚ × ℚ × ℚ)
    (labrandom : Bool) : List ℕ → List ℕ → Display ℕ
  | d0 :: d1 :: d2 :: rest, data =>
      sshowGo rand lab2rgb labrandom (d1 :: d2 :: rest)
        ((data.drop (d0 / 2 * (d1 :: d2 :: rest).prod)).take (d1 :: d2 :: rest).prod)
  | sh, data =>
      .imshow ⟨sh, data⟩
        (.listed (sshowTable rand lab2rgb labrandom (maxLabel ⟨sh, data⟩))) .nearest

/-- `sshow(im, labrandom)`: if `im.ndim > 2`, recurse on the middle leading
cross-section; otherwise build the random colormap for `np.ceil(im.max())`
labels plus a black background row and hand `im` to `plt.imshow` with it,
nearest-neighbour interpolation. -/
def sshow (rand : ℕ → ℕ → ℚ) (lab2rgb : ℚ × ℚ × ℚ → ℚ × ℚ × ℚ)
    (im : NDArray ℕ) (labrandom : Bool) : Display ℕ :=
  sshowGo rand lab2rgb labrandom im.shape im.data

theorem cshowGo_base :
    ∀ (sh : List ℕ), sh.length ≤ 2 →
      ∀ (data : List ℚ), cshowGo sh data = .imshow ⟨sh, data⟩ .cubehelix .nearest
  | [], _, _ => rfl
  | [_], _, _ => rfl
  | [_, _], _, _ => rfl
  | _ :: _ :: _ :: _, h, _ => absurd h (by simp)

theorem sshowGo_base (rand : ℕ → ℕ → ℚ) (lab2rgb : ℚ × ℚ × ℚ → ℚ × ℚ × ℚ)
    (labrandom : Bool) :
    ∀ (sh : List ℕ), sh.length ≤ 2 → ∀ (data : List ℕ),
      sshowGo rand lab2rgb labrandom sh data =
        .imshow ⟨sh, data⟩
          (.listed (sshowTable rand lab2rgb labrandom (maxLabel ⟨sh, data⟩))) .nearest
  | [], _, _ => rfl
  | [_], _, _ => rfl
  | [_, _], _, _ => rfl
  | _ :: _ :: _ :: _, h, _ => absurd h (by simp)

/-- C1: for every array with at least two axes, the dimensionality reducer
shared by `cshow` and `sshow` returns an array with exactly two axes,
applying it twice gives the same result as applying it once, and a 2-D
input is returned unchanged. -/
theorem reducer_ndim_two_idempotent {α : Type} (a : NDArray α) (h : 2 ≤ a.ndim) :
    (reduce a).ndim = 2 ∧ reduce (reduce a) = reduce a ∧
      (a.ndim = 2 → reduce a = a) := by
  have hnd : (reduce a).ndim = 2 := reduceGo_ndim a.shape h a.data
  refine ⟨hnd, ?_, ?_⟩
  · show reduceGo (reduce a).shape (reduce a).data = reduce a
    rw [reduceGo_base (reduce a).shape (by rw [show (reduce a).shape.length = (reduce a).ndim from rfl, hnd]) (reduce a).data]
  · intro h2
    show reduceGo a.shape a.data = a
    rw [reduceGo_base a.shape (le_of_eq h2) a.data]

/-- C1 witness: the claim instantiated at the 3-D array of shape
`(3, 2, 2)` holding `0, …, 11`. -/
theorem reducer_ndim_two_idempotent_witness :
    2 ≤ (NDArray.mk [3, 2, 2] ([0, 1, 2, 3, 4, 5, 6, 7, 8, 9, 10, 11] : List ℚ)).ndim ∧
      ((reduce (NDArray.mk [3, 2, 2] ([0, 1, 2, 3, 4, 5, 6, 7, 8, 9, 10, 11] : List ℚ))).ndim = 2 ∧
        reduce (reduce (NDArray.mk [3, 2, 2] ([0, 1, 2, 3, 4, 5, 6, 7, 8, 9, 10, 11] : List ℚ))) =
          reduce (NDArray.mk [3, 2, 2] ([0, 1, 2, 3, 4, 5, 6, 7, 8, 9, 10, 11] : List ℚ)) ∧
        ((NDArray.mk [3, 2, 2] ([0, 1, 2, 3, 4, 5, 6, 7, 8, 9, 10, 11] : List ℚ)).ndim = 2 →
          reduce (NDArray.mk [3, 2, 2] ([0, 1, 2, 3, 4, 5, 6, 7, 8, 9, 10, 11] : List ℚ)) =
            NDArray.mk [3, 2, 2] ([0, 1, 2, 3, 4, 5, 6, 7, 8, 9, 10, 11] : List ℚ))) :=
  ⟨by decide, reducer_ndim_two_idempotent _ (by decide)⟩

/-- C2: for every array with more than two axes, the reducer strips leading
axes by selecting the cross-section at index `shape[0] / 2` each time — in
one step `reduce a = reduce (sectionAt (a.shape.headI / 2) a)`, and in full
`reduce a` folds `sectionAt` over the index sequence `reduceIndices
a.shape`; on shape `(7, 512, 512)` that sequence is `[3]`, on
`(4, 50, 50, 50)` it is `[2, 25]`. -/
theorem reducer_selects_middle_indices {α : Type} (a : NDArray α)
    (h : 2 < a.ndim) :
    reduce a = reduce (sectionAt (a.shape.headI / 2) a) ∧
      reduce a = (reduceIndices a.shape).foldl (fun b i => sectionAt i b) a ∧
      reduceIndices [7, 512, 512] = [3] ∧
      reduceIndices [4, 50, 50, 50] = [2, 25] := by
  refine ⟨?_, reduceGo_foldl a.shape a.data, by decide, by decide⟩
  obtain ⟨sh, data⟩ := a
  match sh, h with
  | d0 :: d1 :: d2 :: rest, _ =>
    show reduceGo _ _ = reduce (sectionAt (d0 / 2) ⟨d0 :: d1 :: d2 :: rest, data⟩)
    rw [reduceGo, sectionAt]
    rfl

/-- C2 witness: the claim instantiated at an array of shape
`(4, 50, 50, 50)` (flat data need not fill the shape for the index
computation). -/
theorem reducer_selects_middle_indices_witness :
    2 < (NDArray.mk [4, 50, 50, 50] ([] : List ℚ)).ndim ∧
      (reduce (NDArray.mk [4, 50, 50, 50] ([] : List ℚ)) =
          reduce (sectionAt ((NDArray.mk [4, 50, 50, 50] ([] : List ℚ)).shape.headI / 2)
            (NDArray.mk [4, 50, 50, 50] ([] : List ℚ))) ∧
        reduce (NDArray.mk [4, 50, 50, 50] ([] : List ℚ)) =
          (reduceIndices (NDArray.mk [4, 50, 50, 50] ([] : List ℚ)).shape).foldl
            (fun b i => sectionAt i b) (NDArray.mk [4, 50, 50, 50] ([] : List ℚ)) ∧
        reduceIndices [7, 512, 512] = [3] ∧
        reduceIndices [4, 50, 50, 50] = [2, 25]) :=
  ⟨by decide, reducer_selects_middle_indices _ (by decide)⟩

/-- C3: for every `n ≥ 1`, `_factors n` is exactly the divisors `d` of `n`
with `1 < d < n`, listed in ascending order; it is empty when `n` is 1, 2,
3 or prime; `_factors 10 = [2, 5]` and `_factors 20 = [2, 4, 5, 10]`. -/
theorem factors_characterisation (n : ℕ) (h : 1 ≤ n) :
    (∀ d, d ∈ _factors n ↔ 1 < d ∧ d < n ∧ n % d = 0) ∧
      List.Sorted (· < ·) (_factors n) ∧
      (n = 1 ∨ n = 2 ∨ n = 3 ∨ n.Prime → _factors n = []) ∧
      _factors 10 = [2, 5] ∧ _factors 20 = [2, 4, 5, 10] :=
  ⟨fun d => mem_factors_iff n d h, factors_sorted n,
    factors_empty_of_small_or_prime n, by decide, by decide⟩

/-- C3 witness: the claim instantiated at `n = 10`. -/
theorem factors_characterisation_witness :
    1 ≤ 10 ∧
      ((∀ d, d ∈ _factors 10 ↔ 1 < d ∧ d < 10 ∧ 10 % d = 0) ∧
        List.Sorted (· < ·) (_factors 10) ∧
        ((10 : ℕ) = 1 ∨ (10 : ℕ) = 2 ∨ (10 : ℕ) = 3 ∨ Nat.Prime 10 → _factors 10 = []) ∧
        _factors 10 = [2, 5] ∧ _factors 20 = [2, 4, 5, 10]) :=
  ⟨by decide, factors_characterisation 10 (by decide)⟩

/-- C4: on a sequence whose length has a nonempty factor list, `rshow`
chooses the factor at index `len(fs) // 2` (that is `chosenFactor n`) and
hands the renderer the sequence reshaped row-major to
`(n / chosenFactor n, chosenFactor n)`; every length-10 sequence is
reshaped to `(2, 5)`. -/
theorem rshow_composite_grid (values : List ℚ)
    (h : _factors values.length ≠ []) :
    rshow values =
        cshow ⟨[values.length / chosenFactor values.length,
                chosenFactor values.length], values⟩ ∧
      rshow values =
        .imshow ⟨[values.length / chosenFactor values.length,
                  chosenFactor values.length], values⟩ .cubehelix .nearest ∧
      (∀ w : List ℚ, w.length = 10 →
        rshow w = .imshow ⟨[2, 5], w⟩ .cubehelix .nearest) := by
  have hk : (_factors values.length).length ≠ 0 := by
    simpa [List.length_eq_zero] using h
  refine ⟨?_, ?_, ?_⟩
  · show rshow values = _
    rw [rshow]
    simp only [if_neg hk]
    rfl
  · rw [rshow]
    simp only [if_neg hk]
    exact cshowGo_base _ (by simp) _
  · intro w hw
    have hf : _factors 10 = [2, 5] := by decide
    rw [rshow]
    simp only [hw, hf]
    norm_num
    exact cshowGo_base [2, 5] (by simp) w

/-- C4 witness: the claim instantiated at the 10-element sequence
`0, …, 9`, whose length has factor list `[2, 5]`. -/
theorem rshow_composite_grid_witness :
    _factors ([0, 1, 2, 3, 4, 5, 6, 7, 8, 9] : List ℚ).length ≠ [] ∧
      (rshow [0, 1, 2, 3, 4, 5, 6, 7, 8, 9] =
          cshow ⟨[([0, 1, 2, 3, 4, 5, 6, 7, 8, 9] : List ℚ).length /
                    chosenFactor ([0, 1, 2, 3, 4, 5, 6, 7, 8, 9] : List ℚ).length,
                  chosenFactor ([0, 1, 2, 3, 4, 5, 6, 7, 8, 9] : List ℚ).length],
                 [0, 1, 2, 3, 4, 5, 6, 7, 8, 9]⟩ ∧
        rshow [0, 1, 2, 3, 4, 5, 6, 7, 8, 9] =
          .imshow ⟨[([0, 1, 2, 3, 4, 5, 6, 7, 8, 9] : List ℚ).length /
                      chosenFactor ([0, 1, 2, 3, 4, 5, 6, 7, 8, 9] : List ℚ).length,
                    chosenFactor ([0, 1, 2, 3, 4, 5, 6, 7, 8, 9] : List ℚ).length],
                   [0, 1, 2, 3, 4, 5, 6, 7, 8, 9]⟩ .cubehelix .nearest ∧
        (∀ w : List ℚ, w.length = 10 →
          rshow w = .imshow ⟨[2, 5], w⟩ .cubehelix .nearest)) :=
  ⟨by decide, rshow_composite_grid [0, 1, 2, 3, 4, 5, 6, 7, 8, 9] (by decide)⟩

/-- C9: whenever the factor list of `n` is nonempty, the factor chosen by
`rshow` divides `n` and lies between 2 and `n / 2`, so the row-major
reshape fits exactly (`(n / f) * f = n`) and both grid dimensions are at
least 2 — the image branch never produces a degenerate `1 × n` grid. -/
theorem chosen_factor_safe (n : ℕ) (h : _factors n ≠ []) :
    chosenFactor n ∣ n ∧ 2 ≤ chosenFactor n ∧ chosenFactor n ≤ n / 2 ∧
      2 ≤ n / chosenFactor n ∧ n / chosenFactor n * chosenFactor n = n := by
  have hk : 0 < (_factors n).length := List.length_pos.mpr h
  have hidx : (_factors n).length / 2 < (_factors n).length :=
    Nat.div_lt_self hk one_lt_two
  have hmem : chosenFactor n ∈ _factors n := by
    rw [chosenFactor, List.getD_eq_getElem?_getD, List.getElem?_eq_getElem hidx]
    exact List.getElem_mem _
  obtain ⟨h2, hle, hmod⟩ := (mem_factors n (chosenFactor n)).mp hmem
  have hdvd : chosenFactor n ∣ n := Nat.dvd_of_mod_eq_zero hmod
  have hpos : 0 < chosenFactor n := by omega
  have h2f : 2 * chosenFactor n ≤ n := by omega
  refine ⟨hdvd, h2, hle, ?_, Nat.div_mul_cancel hdvd⟩
  exact (Nat.le_div_iff_mul_le hpos).mpr h2f

/-- C9 witness: the claim instantiated at `n = 10`, whose chosen factor is
5. -/
theorem chosen_factor_safe_witness :
    _factors 10 ≠ [] ∧
      (chosenFactor 10 ∣ 10 ∧ 2 ≤ chosenFactor 10 ∧ chosenFactor 10 ≤ 10 / 2 ∧
        2 ≤ 10 / chosenFactor 10 ∧ 10 / chosenFactor 10 * chosenFactor 10 = 10) :=
  ⟨by decide, chosen_factor_safe 10 (by decide)⟩

/-- C10: on any input with at most two axes — including a 1-D vector —
`cshow` performs zero cross-sections and hands the array to the renderer
unchanged, and `sshow` does the same in its base case; the reducer is the
identity there and no error path exists (both functions are total). -/
theorem base_case_unchanged (a : NDArray ℚ) (l : NDArray ℕ) (rand : ℕ → ℕ → ℚ)
    (l2r : ℚ × ℚ × ℚ → ℚ × ℚ × ℚ) (b : Bool) (ha : a.ndim ≤ 2) (hl : l.ndim ≤ 2) :
    cshow a = .imshow a .cubehelix .nearest ∧ reduce a = a ∧ reduce l = l ∧
      sshow rand l2r l b =
        .imshow l (.listed (sshowTable rand l2r b (maxLabel l))) .nearest :=
  ⟨cshowGo_base a.shape ha a.data, reduceGo_base a.shape ha a.data,
    reduceGo_base l.shape hl l.data, sshowGo_base rand l2r b l.shape hl l.data⟩

/-- C10 witness: the claim instantiated at the 1-D grayscale vector
`(1, 2, 3)` and the 1-D label vector `(0, 1)`. -/
theorem base_case_unchanged_witness :
    (NDArray.mk [3] ([1, 2, 3] : List ℚ)).ndim ≤ 2 ∧
      (NDArray.mk [2] ([0, 1] : List ℕ)).ndim ≤ 2 ∧
      (cshow ⟨[3], [1, 2, 3]⟩ = .imshow ⟨[3], [1, 2, 3]⟩ .cubehelix .nearest ∧
        reduce (NDArray.mk [3] ([1, 2, 3] : List ℚ)) = ⟨[3], [1, 2, 3]⟩ ∧
        reduce (NDArray.mk [2] ([0, 1] : List ℕ)) = ⟨[2], [0, 1]⟩ ∧
        sshow (fun _ _ => 1 / 2) id ⟨[2], [0, 1]⟩ false =
          .imshow ⟨[2], [0, 1]⟩
            (.listed (sshowTable (fun _ _ => 1 / 2) id false
              (maxLabel ⟨[2], [0, 1]⟩))) .nearest) :=
  ⟨by decide, by decide,
    base_case_unchanged ⟨[3], [1, 2, 3]⟩ ⟨[2], [0, 1]⟩ (fun _ _ => 1 / 2) id false
      (by decide) (by decide)⟩

-- Bounds for the colormap rows.

theorem clamp01_bounds (x : ℚ) : 0 ≤ clamp01 x ∧ clamp01 x ≤ 1 := by
  unfold clamp01
  split_ifs with h1 h2
  · norm_num
  · norm_num
  · push_neg at h1 h2
    exact ⟨h1, h2⟩

theorem sshowColors_length (rand : ℕ → ℕ → ℚ) (l2r : ℚ × ℚ × ℚ → ℚ × ℚ × ℚ)
    (lb : Bool) (m : ℕ) : (sshowColors rand l2r lb m).length = m := by
  cases lb <;> simp [sshowColors]

theorem sshowColors_bounds (rand : ℕ → ℕ → ℚ) (l2r : ℚ × ℚ × ℚ → ℚ × ℚ × ℚ)
    (lb : Bool) (m : ℕ) (hr : ∀ i j, 0 ≤ rand i j ∧ rand i j < 1) :
    ∀ c ∈ sshowColors rand l2r lb m,
      0 ≤ c.1 ∧ c.1 ≤ 1 ∧ 0 ≤ c.2.1 ∧ c.2.1 ≤ 1 ∧ 0 ≤ c.2.2 ∧ c.2.2 ≤ 1 := by
  intro c hc
  cases lb with
  | true =>
      simp only [sshowColors, if_true, List.mem_map, List.mem_range] at hc
      obtain ⟨i, _, rfl⟩ := hc
      exact ⟨(clamp01_bounds _).1, (clamp01_bounds _).2, (clamp01_bounds _).1,
        (clamp01_bounds _).2, (clamp01_bounds _).1, (clamp01_bounds _).2⟩
  | false =>
      simp only [sshowColors, Bool.false_eq_true, if_false, List.mem_map,
        List.mem_range] at hc
      obtain ⟨i, _, rfl⟩ := hc
      exact ⟨(hr i 0).1, (hr i 0).2.le, (hr i 1).1, (hr i 1).2.le,
        (hr i 2).1, (hr i 2).2.le⟩

/-- C6: on a 2-D label array, and with the random source delivering values
in `[0, 1)` as `np.random.rand` does, the colormap built by `sshow` has
row 0 exactly `(0, 0, 0)`, has length `maxLabel im + 1` (the maximum label
is an integer, so it equals its ceiling), and every other row lies in
`[0, 1]^3` — for both values of `labrandom`, the perceptually-spaced mode
clamping after the color-space conversion. -/
theorem sshow_colormap_table (rand : ℕ → ℕ → ℚ) (l2r : ℚ × ℚ × ℚ → ℚ × ℚ × ℚ)
    (lb : Bool) (im : NDArray ℕ)
    (hr : ∀ i j, 0 ≤ rand i j ∧ rand i j < 1) (h2 : im.ndim = 2) :
    sshow rand l2r im lb =
        .imshow im (.listed (sshowTable rand l2r lb (maxLabel im))) .nearest ∧
      (sshowTable rand l2r lb (maxLabel im)).length = maxLabel im + 1 ∧
      (sshowTable rand l2r lb (maxLabel im)).headI = (0, 0, 0) ∧
      ∀ c ∈ (sshowTable rand l2r lb (maxLabel im)).tail,
        0 ≤ c.1 ∧ c.1 ≤ 1 ∧ 0 ≤ c.2.1 ∧ c.2.1 ≤ 1 ∧ 0 ≤ c.2.2 ∧ c.2.2 ≤ 1 := by
  refine ⟨sshowGo_base rand l2r lb im.shape (le_of_eq h2) im.data, ?_, rfl, ?_⟩
  · rw [sshowTable]
    simp [sshowColors_length]
  · rw [sshowTable]
    simpa using sshowColors_bounds rand l2r lb (maxLabel im) hr

/-- C6 witness: the claim instantiated at the 1×2 label image with labels
`(1, 2)`, the constant random source `1/2`, the identity conversion and
`labrandom = true`. -/
theorem sshow_colormap_table_witness :
    (∀ i j : ℕ, 0 ≤ (fun _ _ => (1 : ℚ) / 2) i j ∧ (fun _ _ => (1 : ℚ) / 2) i j < 1) ∧
      (NDArray.mk [1, 2] ([1, 2] : List ℕ)).ndim = 2 ∧
      (sshow (fun _ _ => (1 : ℚ) / 2) id ⟨[1, 2], [1, 2]⟩ true =
          .imshow ⟨[1, 2], [1, 2]⟩
            (.listed (sshowTable (fun _ _ => (1 : ℚ) / 2) id true
              (maxLabel ⟨[1, 2], [1, 2]⟩))) .nearest ∧
        (sshowTable (fun _ _ => (1 : ℚ) / 2) id true
            (maxLabel ⟨[1, 2], [1, 2]⟩)).length = maxLabel (NDArray.mk [1, 2] ([1, 2] : List ℕ)) + 1 ∧
        (sshowTable (fun _ _ => (1 : ℚ) / 2) id true
            (maxLabel ⟨[1, 2], [1, 2]⟩)).headI = (0, 0, 0) ∧
        ∀ c ∈ (sshowTable (fun _ _ => (1 : ℚ) / 2) id true
            (maxLabel ⟨[1, 2], [1, 2]⟩)).tail,
          0 ≤ c.1 ∧ c.1 ≤ 1 ∧ 0 ≤ c.2.1 ∧ c.2.1 ≤ 1 ∧ 0 ≤ c.2.2 ∧ c.2.2 ≤ 1) :=
  ⟨fun i j => by norm_num, by decide,
    sshow_colormap_table (fun _ _ => (1 : ℚ) / 2) id true ⟨[1, 2], [1, 2]⟩
      (fun i j => by norm_num) (by decide)⟩

/-- A 1-D intensity vector of prime length 7. -/
def v7 : List ℚ := [0, 1, 2, 3, 4, 5, 6]

/-- A 1-D label vector of prime length 7. -/
def l7 : List ℕ := [0, 0, 0, 0, 0, 0, 0]

/-- C5 counterexample: on length-7 (prime) 1-D input, `rshow` takes the
line-plot fallback, and the other display operations that accept a vector
(`cshow`, `sshow`) hand the 1-D array to the renderer unchanged with shape
`(7,)` — no display mode in the program reshapes to the claimed degenerate
`1 × n` 2-D array, whose shape `(1, 7)` differs from `(7,)`. -/
theorem no_degenerate_fallback_cex :
    rshow v7 = .plot v7 ∧
      cshow ⟨[7], v7⟩ = .imshow ⟨[7], v7⟩ .cubehelix .nearest ∧
      sshow (fun _ _ => 1 / 2) id ⟨[7], l7⟩ true =
        .imshow ⟨[7], l7⟩ (.listed [(0, 0, 0)]) .nearest ∧
      ([7] : List ℕ) ≠ [1, 7] :=
  ⟨rfl, rfl, rfl, by decide⟩

/-- C5 (amended): a vector whose length has an empty factor list (prime
length, or length at most 3) triggers the line-plot fallback in `rshow`
and never an image reshape; no display mode falls back to a `1 × n`
degenerate 2-D array — on 1-D input, `cshow` and `sshow` hand the array to
the renderer unchanged, with 1-D shape `(n,)`. -/
theorem prime_length_lineplot (values : List ℚ) (lbl : List ℕ)
    (rand : ℕ → ℕ → ℚ) (l2r : ℚ × ℚ × ℚ → ℚ × ℚ × ℚ) (b : Bool)
    (h : _factors values.length = []) :
    rshow values = .plot values ∧
      cshow ⟨[values.length], values⟩ =
        .imshow ⟨[values.length], values⟩ .cubehelix .nearest ∧
      (∃ cm, sshow rand l2r ⟨[lbl.length], lbl⟩ b =
        .imshow ⟨[lbl.length], lbl⟩ cm .nearest) := by
  refine ⟨?_, cshowGo_base _ (by simp) _, ⟨_, sshowGo_base rand l2r b _ (by simp) _⟩⟩
  rw [rshow]
  simp [h]

/-- C5 (amended) witness: the amended claim instantiated at the length-7
vectors. -/
theorem prime_length_lineplot_witness :
    _factors v7.length = [] ∧
      (rshow v7 = .plot v7 ∧
        cshow ⟨[v7.length], v7⟩ =
          .imshow ⟨[v7.length], v7⟩ .cubehelix .nearest ∧
        (∃ cm, sshow (fun _ _ => 1 / 2) id ⟨[l7.length], l7⟩ true =
          .imshow ⟨[l7.length], l7⟩ cm .nearest)) :=
  ⟨by decide, prime_length_lineplot v7 l7 (fun _ _ => 1 / 2) id true (by decide)⟩

/-- C8 counterexample: at `n = 0 < 1` the Factorizer returns the empty
list, and the Grid Reshaper on the length-0 sequence takes the line-plot
fallback — both return normally, neither fails with InvalidArgument (no
error path exists in the code). -/
theorem factors_no_invalid_argument_cex :
    _factors 0 = [] ∧ rshow [] = .plot [] :=
  ⟨rfl, rfl⟩

/-- C8 (amended): for `n < 1` the Factorizer returns the empty list without
raising, and the Grid Reshaper on a length-0 sequence falls back to the
line plot without raising; the code has no InvalidArgument condition. -/
theorem factors_small_no_error (n : ℕ) (h : n < 1) (values : List ℚ)
    (hv : values.length = 0) :
    _factors n = [] ∧ rshow values = .plot values := by
  have hn : n = 0 := by omega
  have he : values = [] := List.length_eq_zero.mp hv
  subst hn
  subst he
  exact ⟨rfl, rfl⟩

/-- C8 (amended) witness: the amended claim instantiated at `n = 0` and the
empty sequence. -/
theorem factors_small_no_error_witness :
    0 < 1 ∧ ([] : List ℚ).length = 0 ∧
      (_factors 0 = [] ∧ rshow [] = .plot []) :=
  ⟨by decide, rfl, factors_small_no_error 0 (by decide) [] rfl⟩

-- `nshow` and the unguarded division.

theorem normalizeChans_length (im : List (List (List ℚ))) :
    ∀ (k : ℕ) (p : List ℚ), (normalizeChans im k p).length = p.length
  | _, [] => rfl
  | k, v :: vs => by
      rw [normalizeChans]
      simp [normalizeChans_length im (k + 1) vs]

theorem normalizeChans_get? (im : List (List (List ℚ))) :
    ∀ (p : List ℚ) (k i : ℕ),
      (normalizeChans im k p).get? i =
        (p.get? i).map (fun v =>
          npDiv (v - chanMin im (k + i)) (chanMax im (k + i) - chanMin im (k + i)))
  | [], _, _ => by simp [normalizeChans]
  | v :: vs, k, 0 => by simp [normalizeChans]
  | v :: vs, k, i + 1 => by
      rw [normalizeChans]
      have harith : k + (i + 1) = (k + 1) + i := by omega
      simp only [List.get?_cons_succ, harith]
      exact normalizeChans_get? im vs (k + 1) i

/-- A 1×2 image with two channels: channel 0 holds 10 and 20, channel 1 is
constant 5 — so `channel_max == channel_min` for channel 1. -/
def imC7 : List (List (List ℚ)) := [[[10, 5], [20, 5]]]

/-- C7 counterexample: on the 1×2 two-channel image whose channel 0 ranges
over 10..20 and whose channel 1 is constant 5, `nshow` divides unguarded:
the channel-1 entries of the array it hands to the renderer are the
non-finite marker `none` (numpy's NaN), not 0, and no error is surfaced —
the function returns the array normally. -/
theorem nshow_divzero_cex :
    nshow imC7 = [[[some 0, none], [some 1, none]]] ∧
      (none : Option ℚ) ≠ some 0 := by
  constructor
  · norm_num [nshow, imC7, normalizeChans, npDiv, chanMin, chanMax, chanVals,
      listMin, listMax, min_def, max_def]
  · simp

/-- C7 (amended): when `channel_max == channel_min` for some channel,
`nshow` performs the division anyway: every entry of that channel in the
output array is the non-finite marker `none` (numpy silently produces
NaN/Inf there); the code neither guards by setting the channel to 0 nor
surfaces a DivideByZero condition. -/
theorem nshow_divzero_nan (im : List (List (List ℚ))) (ch : ℕ)
    (h : chanMax im ch = chanMin im ch) :
    ∀ row ∈ nshow im, ∀ px ∈ row, ∀ hlt : ch < px.length,
      px.get ⟨ch, hlt⟩ = none := by
  intro row hrow px hpx hlt
  rw [nshow] at hrow
  obtain ⟨row₀, _, rfl⟩ := List.mem_map.mp hrow
  obtain ⟨p, _, rfl⟩ := List.mem_map.mp hpx
  have hgl : ch < p.length := by
    rwa [normalizeChans_length] at hlt
  have h0 := normalizeChans_get? im p 0 ch
  rw [List.get?_eq_get hlt, List.get?_eq_get hgl] at h0
  simp only [Nat.zero_add, Option.map_some'] at h0
  rw [h, sub_self] at h0
  simpa [npDiv] using h0

/-- C7 (amended) witness: the amended claim instantiated at `imC7`, whose
channel 1 is constant. -/
theorem nshow_divzero_nan_witness :
    chanMax imC7 1 = chanMin imC7 1 ∧
      (∀ row ∈ nshow imC7, ∀ px ∈ row, ∀ hlt : (1 : ℕ) < px.length,
        px.get ⟨1, hlt⟩ = none) :=
  ⟨by norm_num [chanMin, chanMax, chanVals, imC7, listMin, listMax, min_def, max_def],
    nshow_divzero_nan imC7 1
      (by norm_num [chanMin, chanMax, chanVals, imC7, listMin, listMax, min_def, max_def])⟩
